import Mathlib

/-
Verification of the GithubFetcher repository (Rust).

Shallow embedding of the core logic:
  * src/models.rs      — `LineRange`, `LineRange::bounds`, `parse_line_range`
  * src/server/mod.rs  — `apply_content_limits`, `slice_lines`, the `tree`
                         handler's depth clamp
  * src/client/mod.rs  — `expand_tree`, `assemble_tree`, `list_repos`,
                         path helpers and the GitHub content shapes
  * src/error.rs       — `ApiErrorBody`

Rust `usize` becomes `Nat` (with an explicit 2^64 overflow check where the
source calls `str::parse::<usize>`), Rust `String` becomes Lean `String`
(`str::chars()` iterates Unicode scalar values, exactly Lean's `Char`),
fallible code returns `Option`/`Except`.
-/

set_option maxHeartbeats 1000000

/-- Entry kinds, from `EntryType` in src/models.rs (File, Dir, Symlink,
Submodule). -/
inductive EntryType where
  | file
  | dir
  | symlink
  | submodule
deriving DecidableEq, Repr

/-- Line ranges, from `LineRange` in src/models.rs.  The Rust source has
three variants: `End(usize)`, `Range { start, end }` and `Start(usize)`.
(`end` is a Lean keyword, so the second bound is named `e` here.) -/
inductive LineRange where
  | End (e : Nat)
  | Range (start e : Nat)
  | Start (s : Nat)
deriving DecidableEq, Repr

/-- From `LineRange::bounds` in src/models.rs: `End(end) -> (1, Some(end))`,
`Range { start, end } -> (start, Some(end))`, `Start(start) -> (start, None)`. -/
def LineRange.bounds : LineRange → Nat × Option Nat
  | .End e => (1, some e)
  | .Range s e => (s, some e)
  | .Start s => (s, none)

/-- Helper for `splitInclusive`: accumulates the current segment (reversed)
while scanning the character list. -/
def splitInclusiveAux : List Char → List Char → List (List Char)
  | acc, [] => if acc.isEmpty then [] else [acc.reverse]
  | acc, c :: rest =>
    if c = '\n' then (c :: acc).reverse :: splitInclusiveAux [] rest
    else splitInclusiveAux (c :: acc) rest

/-- Rust's `str::split_inclusive('\n')`: each segment keeps its trailing
newline; a final segment without a newline is kept; the empty string yields
no segments. -/
def splitInclusive (cs : List Char) : List (List Char) :=
  splitInclusiveAux [] cs

/-- From `slice_lines` in src/server/mod.rs (lines 203-224): a zero bound or
an inverted range yields the empty string; otherwise the segments produced by
`split_inclusive('\n')` whose 1-based index lies in `[start, e]` are
concatenated (the source `continue`s below `start` and `break`s above `e`,
which filters the very same segments). -/
def slice_lines (content : String) (start e : Nat) : String :=
  if start = 0 ∨ e = 0 ∨ e < start then "" else
    String.join ((((splitInclusive content.data).enum).filter
      (fun p => decide (start ≤ p.1 + 1 ∧ p.1 + 1 ≤ e))).map
        (fun p => String.mk p.2))

/-- From `apply_content_limits` in src/server/mod.rs (lines 183-201).  The
character cap is applied first (`content.chars().take(limit).collect()`),
then the line range.  CAUTION, faithful to the source as it stands: the
`match` on the range (lines 194-197) has arms only for `End(end)` and for
`Range([start, end])` — an array-shaped pattern left over from an older
`LineRange` — and **no arm at all** for the `Start` variant that
src/models.rs defines (so the match is not exhaustive against models.rs's
`LineRange`, and `LineRange::bounds` is never consulted).  The missing
`Start` case is rendered here as `none`: the source assigns no result to it. -/
def apply_content_limits (content : String) (line_range : Option LineRange)
    (max_chars : Option Nat) : Option String :=
  let output : String :=
    match max_chars with
    | some limit => String.mk (content.data.take limit)
    | none => content
  match line_range with
  | none => some output
  | some (.End e) => some (slice_lines output 1 e)
  | some (.Range s e) => some (slice_lines output s e)
  | some (.Start _) => none

/-- C1: the claim says that with no character limit and the line range
`Start(n)` the Content Window returns lines `n`..EOF, via
`bounds(Start(n)) = (n, None)`.  models.rs does define those bounds (second
conjunct), but `apply_content_limits` in src/server/mod.rs has no match arm
for `Start` at all (and never calls `bounds`), so the code produces no
result for a `Start` range: the embedding yields `none` where the claim
requires lines 2..EOF (`"b\nc\n"`). -/
theorem c1_start_unhandled :
    apply_content_limits "a\nb\nc\n" (some (LineRange.Start 2)) none = none ∧
    (LineRange.Start 2).bounds = (2, none) :=
  ⟨rfl, rfl⟩

/-- C6: when both a character limit and a line range are given, the
character limit is applied first and the line range second: applying both at
once equals applying the character limit alone and then the line range alone
(first conjunct, for every text, range and limit — including the unhandled
`Start` ranges, where both sides are `none`); and the spec's example
`apply("1\n2\n3\n4", Some(5), Some(End(2))) == "1\n2\n"` holds. -/
theorem c6_char_limit_first :
    (∀ (content : String) (r : LineRange) (limit : Nat),
      apply_content_limits content (some r) (some limit) =
        (apply_content_limits content none (some limit)).bind
          (fun t => apply_content_limits t (some r) none)) ∧
    apply_content_limits "1\n2\n3\n4" (some (LineRange.End 2)) (some 5) =
      some "1\n2\n" := by
  refine ⟨?_, by rfl⟩
  intro content r limit
  cases r <;> rfl

/-- C7: character truncation keeps at most `limit` characters, counted as
Unicode scalar values exactly as Rust's `str::chars()` does, and the result
is a prefix of the original character sequence (so no character is ever
split); the spec's example `apply("héllo", Some(3), None) == "hél"` holds
(3 characters, even though `é` is two UTF-8 bytes). -/
theorem c7_char_truncation :
    (∀ (content : String) (limit : Nat), ∃ r : String,
      apply_content_limits content none (some limit) = some r ∧
      r.length ≤ limit ∧ r.data <+: content.data) ∧
    apply_content_limits "héllo" none (some 3) = some "hél" := by
  refine ⟨?_, by rfl⟩
  intro content limit
  refine ⟨String.mk (content.data.take limit), rfl, ?_, ?_⟩
  · show (content.data.take limit).length ≤ limit
    rw [List.length_take]
    exact Nat.min_le_left _ _
  · exact ⟨content.data.drop limit, List.take_append_drop _ _⟩

/-- C8: a zero bound or an inverted range yields the empty string for the
`End` and `Range` forms, with or without a character limit (first two
conjuncts, matching the guard at the top of `slice_lines`); but for the
third form, `Start(0)`, the source's match has no arm, so the code yields
no result at all where the claim requires the empty string (third
conjunct). -/
theorem c8_zero_or_inverted_bounds :
    (∀ (text : String) (mc : Option Nat),
      apply_content_limits text (some (LineRange.End 0)) mc = some "") ∧
    (∀ (text : String) (mc : Option Nat) (s e : Nat), s = 0 ∨ e = 0 ∨ e < s →
      apply_content_limits text (some (LineRange.Range s e)) mc = some "") ∧
    (∀ (text : String) (mc : Option Nat),
      apply_content_limits text (some (LineRange.Start 0)) mc = none) := by
  refine ⟨?_, ?_, ?_⟩
  · intro text mc
    cases mc <;> simp [apply_content_limits, slice_lines]
  · intro text mc s e h
    cases mc <;> simp only [apply_content_limits, slice_lines, if_pos h]
  · intro text mc
    cases mc <;> rfl

/-- Witness for C8 at a concrete inverted range. -/
theorem c8_witness :
    apply_content_limits "a\nb" (some (LineRange.Range 3 1)) none = some "" :=
  c8_zero_or_inverted_bounds.2.1 "a\nb" none 3 1 (Or.inr (Or.inr (by decide)))

/-- C9: the identity `apply(text, None, None) == text` holds (first
conjunct), and the Content Window returns a string for every input whose
range is not a `Start` form (second conjunct) — but it is not total as the
claim states: the source's match has no arm for `Start`, so a `Start` range
yields no result at all (third conjunct). -/
theorem c9_identity_and_totality :
    (∀ text : String, apply_content_limits text none none = some text) ∧
    (∀ (text : String) (r : Option LineRange) (mc : Option Nat),
      (∀ n, r ≠ some (LineRange.Start n)) →
      ∃ s, apply_content_limits text r mc = some s) ∧
    apply_content_limits "hello" (some (LineRange.Start 1)) none = none := by
  refine ⟨fun text => rfl, ?_, rfl⟩
  intro text r mc h
  match r with
  | none => exact ⟨_, rfl⟩
  | some (.End e) => exact ⟨_, rfl⟩
  | some (.Range s e) => exact ⟨_, rfl⟩
  | some (.Start n) => exact absurd rfl (h n)

/-- Witness for C9 at a concrete non-`Start` input. -/
theorem c9_witness :
    ∃ s, apply_content_limits "abc" (some (LineRange.End 2)) (some 2) = some s :=
  c9_identity_and_totality.2.1 "abc" (some (LineRange.End 2)) (some 2)
    (by intro n h; simp at h)

/-- Rust's `str::trim`, at the character level: whitespace is stripped from
both ends. -/
def trimChars (cs : List Char) : List Char :=
  ((cs.dropWhile Char.isWhitespace).reverse.dropWhile Char.isWhitespace).reverse

/-- Rust's `str::parse::<usize>()`: an optional leading `+`, then one or
more ASCII digits, rejecting values above `usize::MAX` (64-bit, the target
the crate builds for). -/
def parseUsize (cs : List Char) : Option Nat :=
  let ds :=
    match cs with
    | '+' :: rest => rest
    | ds => ds
  if ds.isEmpty then none
  else if ds.all Char.isDigit then
    let v := ds.foldl (fun a c => a * 10 + (c.toNat - 48)) 0
    if v < 2 ^ 64 then some v else none
  else none

/-- Boolean test that `needle` starts `hay` (Rust's prefix test used by
substring search). -/
def leadsWith : List Char → List Char → Bool
  | [], _ => true
  | _ :: _, [] => false
  | a :: as, b :: bs => a == b && leadsWith as bs

/-- Rust's `str::contains(pattern)` for a non-empty literal pattern. -/
def hasSubstr (needle : List Char) : List Char → Bool
  | [] => needle.isEmpty
  | c :: rest => leadsWith needle (c :: rest) || hasSubstr needle rest

/-- Rust's `str::splitn(2, sep)` when `sep` occurs: the part before the
first occurrence and everything after it.  When `sep` does not occur the
whole string is the first part and the second is empty, matching the
source's `parts.next().unwrap_or("")`. -/
def splitFirst (needle : List Char) : List Char → List Char × List Char
  | [] => ([], [])
  | c :: rest =>
    if leadsWith needle (c :: rest) then ([], (c :: rest).drop needle.length)
    else
      let p := splitFirst needle rest
      (c :: p.1, p.2)

/-- The separator choice of `parse_line_range` (src/models.rs lines
305-313): the first of `"..."`, `".."`, `":"` — checked in that precedence
order — that occurs anywhere in the trimmed input. -/
def sepChoice (cs : List Char) : Option (List Char) :=
  if hasSubstr ['.', '.', '.'] cs then some ['.', '.', '.']
  else if hasSubstr ['.', '.'] cs then some ['.', '.']
  else if hasSubstr [':'] cs then some [':']
  else none

/-- One (already trimmed) side of the separator (src/models.rs lines
319-329): an empty side is `None`, and a non-empty side goes through
`parse::<usize>().ok()` — so a non-empty side that fails to parse becomes
`None` exactly like an empty one. -/
def sideNat (cs : List Char) : Option Nat :=
  if cs.isEmpty then none else parseUsize cs

/-- From `parse_line_range` in src/models.rs (lines 295-337).  Trim; empty
input fails; a bare `usize` is `End(n)`; otherwise the input splits at the
first occurrence of the separator `sepChoice` picks, each side is trimmed
and parsed by `sideNat`; `(Some s, Some e)` is `Range`, `(Some s, None)` is
`Start(s)`, `(None, Some e)` is `End(e)`, `(None, None)` fails. -/
def parse_line_range (value : String) : Option LineRange :=
  let cs := trimChars value.data
  if cs.isEmpty then none
  else
    match parseUsize cs with
    | some e => some (.End e)
    | none =>
      match sepChoice cs with
      | none => none
      | some sep =>
        let p := splitFirst sep cs
        match sideNat (trimChars p.1), sideNat (trimChars p.2) with
        | some s, some e => some (.Range s e)
        | some s, none => some (.Start s)
        | none, some e => some (.End e)
        | none, none => none

/-- C2 counterexample: the claim says parsing fails whenever a side of the
separator is non-empty and non-numeric, yet `"x..3"` — non-numeric left,
numeric right — parses successfully to `End(3)`: the source's
`parse::<usize>().ok()` silently turns the bad side into an absent one. -/
theorem c2_counterexample :
    parse_line_range "x..3" ≠ none ∧
    parse_line_range "x..3" = some (LineRange.End 3) :=
  ⟨by decide, by decide⟩

/-- C2 amended, universally: a side that fails `parse::<usize>()` is
treated exactly like the empty side (first conjunct); and for **every**
input string in which a separator is found (and that is not itself a bare
number), with `(ls, rs)` the raw sides of the split at the separator's
first occurrence, the outcome is determined by the two trimmed sides'
`sideNat` results alone — a `None` left (empty or non-numeric) with a
numeric right yields `End(right)`, a numeric left with a `None` right
yields `Start(left)`, two numeric sides yield `Range`, and parsing fails
exactly when both sides come out `None`. -/
theorem c2_nonnumeric_side_falls_back :
    (∀ cs : List Char, parseUsize cs = none → sideNat cs = sideNat []) ∧
    (∀ (v : String) (sep ls rs : List Char),
      parseUsize (trimChars v.data) = none →
      sepChoice (trimChars v.data) = some sep →
      splitFirst sep (trimChars v.data) = (ls, rs) →
      (∀ e, sideNat (trimChars ls) = none → sideNat (trimChars rs) = some e →
        parse_line_range v = some (LineRange.End e)) ∧
      (∀ s, sideNat (trimChars ls) = some s → sideNat (trimChars rs) = none →
        parse_line_range v = some (LineRange.Start s)) ∧
      (∀ s e, sideNat (trimChars ls) = some s → sideNat (trimChars rs) = some e →
        parse_line_range v = some (LineRange.Range s e)) ∧
      (sideNat (trimChars ls) = none → sideNat (trimChars rs) = none →
        parse_line_range v = none) ∧
      (parse_line_range v = none →
        sideNat (trimChars ls) = none ∧ sideNat (trimChars rs) = none)) := by
  constructor
  · intro cs h
    simp [sideNat, h]
  · intro v sep ls rs h0 hsep hsplit
    have hne : (trimChars v.data).isEmpty = false := by
      cases hcs : trimChars v.data with
      | nil => rw [hcs] at hsep; simp [sepChoice, hasSubstr] at hsep
      | cons c rest => rfl
    have hmain : parse_line_range v =
        match sideNat (trimChars ls), sideNat (trimChars rs) with
        | some s, some e => some (LineRange.Range s e)
        | some s, none => some (LineRange.Start s)
        | none, some e => some (LineRange.End e)
        | none, none => none := by
      rw [parse_line_range]
      simp only [hne, Bool.false_eq_true, if_false, h0, hsep, hsplit]
    refine ⟨?_, ?_, ?_, ?_, ?_⟩
    · intro e hl hr
      rw [hmain, hl, hr]
    · intro s hl hr
      rw [hmain, hl, hr]
    · intro s e hl hr
      rw [hmain, hl, hr]
    · intro hl hr
      rw [hmain, hl, hr]
    · intro hpn
      cases hl : sideNat (trimChars ls) with
      | none =>
        cases hr : sideNat (trimChars rs) with
        | none => exact ⟨rfl, rfl⟩
        | some e => rw [hmain, hl, hr] at hpn; cases hpn
      | some s =>
        cases hr : sideNat (trimChars rs) with
        | none => rw [hmain, hl, hr] at hpn; cases hpn
        | some e => rw [hmain, hl, hr] at hpn; cases hpn

/-- Witness for C2: the universal fallback theorem instantiated at the
concrete inputs `"x..3"` (non-numeric left, numeric right), `"3..x"`
(numeric left, non-numeric right) and `"x..y"` (both non-numeric). -/
theorem c2_witness :
    parse_line_range "x..3" = some (LineRange.End 3) ∧
    parse_line_range "3..x" = some (LineRange.Start 3) ∧
    parse_line_range "x..y" = none :=
  ⟨(c2_nonnumeric_side_falls_back.2 "x..3" ['.', '.'] ['x'] ['3']
      rfl rfl rfl).1 3 rfl rfl,
   (c2_nonnumeric_side_falls_back.2 "3..x" ['.', '.'] ['3'] ['x']
      rfl rfl rfl).2.1 3 rfl rfl,
   (c2_nonnumeric_side_falls_back.2 "x..y" ['.', '.'] ['x'] ['y']
      rfl rfl rfl).2.2.2.1 rfl rfl⟩

/-- From `ApiErrorBody` in src/error.rs: a message and a stringly typed
HTTP-style code. -/
structure ApiErrorBody where
  message : String
  code : String
deriving DecidableEq, Repr

/-- From `GithubContentType` in src/client/mod.rs. -/
inductive GithubContentType where
  | file
  | dir
  | symlink
  | submodule
deriving DecidableEq, Repr

/-- From `GithubContentType::to_entry_type` in src/client/mod.rs. -/
def GithubContentType.to_entry_type : GithubContentType → EntryType
  | .dir => .dir
  | .file => .file
  | .symlink => .symlink
  | .submodule => .submodule

/-- From `GithubFile` in src/client/mod.rs. -/
structure GithubFile where
  path : String
  type : GithubContentType
  size : Option Nat
  content : Option String
  encoding : Option String
  target : Option String
  submodule_git_url : Option String
deriving DecidableEq, Repr

/-- From `GithubDirectoryEntry` in src/client/mod.rs (the `_name` field is
unused by the source and called `name` here). -/
structure GithubDirectoryEntry where
  name : String
  path : String
  type : GithubContentType
  size : Option Nat
  target : Option String
  submodule_git_url : Option String
deriving DecidableEq, Repr

/-- From `GithubContents` in src/client/mod.rs: a fetch returns either one
file descriptor or a flat directory listing. -/
inductive GithubContents where
  | File (file : GithubFile)
  | Directory (entries : List GithubDirectoryEntry)
deriving DecidableEq, Repr

/-- From `TreeEntry` in src/models.rs; recursive through `children`, so an
inductive rather than a structure. -/
inductive TreeEntry where
  | mk (type : EntryType) (name path : String) (size : Option Nat)
      (target submodule_git_url : Option String) (children : List TreeEntry)

/-- Entry kind of a `TreeEntry`. -/
def TreeEntry.type : TreeEntry → EntryType
  | .mk t _ _ _ _ _ _ => t

/-- Full path of a `TreeEntry` (internal, used as assembly key). -/
def TreeEntry.path : TreeEntry → String
  | .mk _ _ p _ _ _ _ => p

/-- Children of a `TreeEntry`. -/
def TreeEntry.children : TreeEntry → List TreeEntry
  | .mk _ _ _ _ _ _ cs => cs

/-- Rust's `entry.children = cs` field assignment. -/
def TreeEntry.setChildren : TreeEntry → List TreeEntry → TreeEntry
  | .mk t n p s tg su _, cs => .mk t n p s tg su cs

/-- From `entry_name` in src/client/mod.rs: `path.rsplit('/').next()`, the
segment after the last slash (the whole path when there is no slash). -/
def entry_name (path : String) : String :=
  String.mk (path.data.reverse.takeWhile (fun c => c != '/')).reverse

/-- From `parent_path` in src/client/mod.rs: `path.rsplit_once('/')` keeps
everything before the last slash, and a path without a slash has the empty
parent. -/
def parent_path (path : String) : String :=
  let rcs := path.data.reverse
  if rcs.contains '/' then String.mk ((rcs.dropWhile (fun c => c != '/')).drop 1).reverse
  else ""

/-- From `GithubFile::into_tree_entry` in src/client/mod.rs: size is cleared
for Dir and Submodule kinds. -/
def GithubFile.into_tree_entry (f : GithubFile) (children : List TreeEntry) : TreeEntry :=
  let t := f.type.to_entry_type
  .mk t (entry_name f.path) f.path
    (match t with
      | .dir => none
      | .submodule => none
      | _ => f.size)
    f.target f.submodule_git_url children

/-- From `GithubDirectoryEntry::into_tree_entry` in src/client/mod.rs. -/
def GithubDirectoryEntry.into_tree_entry (e : GithubDirectoryEntry)
    (children : List TreeEntry) : TreeEntry :=
  let t := e.type.to_entry_type
  .mk t (entry_name e.path) e.path
    (match t with
      | .dir => none
      | .submodule => none
      | _ => e.size)
    e.target e.submodule_git_url children

/-- The `children_by_parent` map (`HashMap<String, Vec<TreeEntry>>`),
modelled as an association list with unique keys; the source only ever
touches it through `entry(k).or_default().push(v)` and `remove(k)`, never
iterating it, so the association list is an exact model. -/
abbrev ChildrenIndex := List (String × List TreeEntry)

/-- Key lookup in the children index. -/
def lookupIdx : ChildrenIndex → String → Option (List TreeEntry)
  | [], _ => none
  | (k, v) :: rest, key => if k = key then some v else lookupIdx rest key

/-- Key removal in the children index (`HashMap::remove`). -/
def eraseIdx : ChildrenIndex → String → ChildrenIndex
  | [], _ => []
  | (k, v) :: rest, key => if k = key then rest else (k, v) :: eraseIdx rest key

/-- Rust's `children_by_parent.entry(key).or_default().push(e)`. -/
def appendIdx : ChildrenIndex → String → TreeEntry → ChildrenIndex
  | [], key, e => [(key, [e])]
  | (k, v) :: rest, key, e =>
    if k = key then (k, v ++ [e]) :: rest else (k, v) :: appendIdx rest key e

/-- Rust's `children_by_parent.remove(parent)`: the stored sequence (if any)
together with the index without that key. -/
def removeKey (idx : ChildrenIndex) (key : String) :
    Option (List TreeEntry) × ChildrenIndex :=
  match lookupIdx idx key with
  | none => (none, idx)
  | some v => (some v, eraseIdx idx key)

/-- Processing one popped `GithubContents` node in `expand_tree`
(src/client/mod.rs lines 354-381): a file is appended as a leaf under its
parent path; a directory appends each entry, in listing order, under the
entry's parent path. -/
def appendNode (idx : ChildrenIndex) (node : GithubContents) : ChildrenIndex :=
  match node with
  | .File f => appendIdx idx (parent_path f.path) (f.into_tree_entry [])
  | .Directory entries =>
    entries.foldl (fun i e => appendIdx i (parent_path e.path) (e.into_tree_entry [])) idx

/-- The nested fetches a node triggers: `is_dir && remaining_depth > 1`
(src/client/mod.rs line 374), in entry order. -/
def dirFetchPaths (remaining_depth : Nat) (node : GithubContents) : List String :=
  match node with
  | .File _ => []
  | .Directory entries =>
    if remaining_depth > 1 then
      (entries.filter (fun e => e.type == GithubContentType.dir)).map (fun e => e.path)
    else []

/-- Sequential nested fetches: the source awaits each
`fetch_contents(..)?` in turn, so the first failure aborts and no later
fetch is issued. -/
def fetchAll (fetch : String → Except ApiErrorBody GithubContents) :
    List String → Except ApiErrorBody (List GithubContents)
  | [] => .ok []
  | p :: rest =>
    match fetch p with
    | .error e => .error e
    | .ok c =>
      match fetchAll fetch rest with
      | .error e => .error e
      | .ok cs => .ok (c :: cs)

/-- The BFS loop of `expand_tree` (src/client/mod.rs lines 349-382),
reformulated level by level: the FIFO queue is seeded with `(root, depth)`
and every item pushed by a depth-`d` item carries depth `d - 1`, so the
queue always holds one or two consecutive depth values and FIFO order
processes the levels one after the other, each in push order.  A level
appends all its nodes' entries to the index (fetches never touch the
index), then performs that level's nested fetches in order; the first
failing fetch aborts the whole expansion with its error. -/
def expandLevel (fetch : String → Except ApiErrorBody GithubContents) :
    Nat → List GithubContents → ChildrenIndex → Except ApiErrorBody ChildrenIndex
  | 0, nodes, idx => .ok (nodes.foldl appendNode idx)
  | 1, nodes, idx => .ok (nodes.foldl appendNode idx)
  | d + 2, nodes, idx =>
    let idx' := nodes.foldl appendNode idx
    let requests := (nodes.map (dirFetchPaths (d + 2))).flatten
    match fetchAll fetch requests with
    | .error e => .error e
    | .ok children =>
      if children.isEmpty then .ok idx'
      else expandLevel fetch (d + 1) children idx'

/-- The entry loop of `assemble_tree` (src/client/mod.rs lines 636-641):
each entry of kind Dir has its children assembled recursively under its own
full path, threading the (shrinking) index; other entries are untouched. -/
def assembleEntries (go : ChildrenIndex → String → List TreeEntry × ChildrenIndex) :
    List TreeEntry → ChildrenIndex → List TreeEntry × ChildrenIndex
  | [], idx => ([], idx)
  | e :: rest, idx =>
    let p := if e.type == EntryType.dir then go idx e.path else ([], idx)
    let e' := if e.type == EntryType.dir then e.setChildren p.1 else e
    let q := assembleEntries go rest p.2
    (e' :: q.1, q.2)

/-- From `assemble_tree` in src/client/mod.rs (lines 630-643):
`remove(parent).unwrap_or_default()` — an absent key yields the empty
sequence and leaves the index untouched; a present key is removed and its
entries' Dir children are assembled recursively.  The Rust recursion is
bounded because every recursive call consumes its key; here a fuel counter
makes that bound explicit, and `fuel = idx.length` suffices: every
consuming call strictly shrinks the index, and at fuel 0 the index is
necessarily empty, where the fuel-out result `([], idx)` coincides with the
absent-key result. -/
def assembleGo : Nat → ChildrenIndex → String → List TreeEntry × ChildrenIndex
  | 0, idx, _ => ([], idx)
  | fuel + 1, idx, parent =>
    match removeKey idx parent with
    | (none, _) => ([], idx)
    | (some entries, idx') => assembleEntries (fun i p => assembleGo fuel i p) entries idx'

/-- Rust `assemble_tree(&mut children_by_parent, parent)` returning the
assembled entries (the drained map is dropped by the caller). -/
def assemble_tree (idx : ChildrenIndex) (parent : String) : List TreeEntry :=
  (assembleGo idx.length idx parent).1

/-- From `expand_tree` in src/client/mod.rs (lines 340-385): expand
breadth-first from the root contents, then assemble under `root_parent`. -/
def expand_tree (fetch : String → Except ApiErrorBody GithubContents)
    (contents : GithubContents) (depth : Nat) (root_parent : String) :
    Except ApiErrorBody (List TreeEntry) :=
  match expandLevel fetch depth [contents] [] with
  | .error e => .error e
  | .ok idx => .ok (assemble_tree idx root_parent)

/-- From the `tree` handler in src/server/mod.rs (line 99):
`let depth = args.depth.max(1);`. -/
def server_tree_depth (args_depth : Nat) : Nat :=
  max args_depth 1

/-- An error surfaced by the sequential fetch loop is the error of one of
the requested fetches, unchanged. -/
theorem fetchAll_error (fetch : String → Except ApiErrorBody GithubContents) :
    ∀ (reqs : List String) (e : ApiErrorBody),
      fetchAll fetch reqs = .error e → ∃ p, fetch p = .error e := by
  intro reqs
  induction reqs with
  | nil => intro e h; simp [fetchAll] at h
  | cons p rest ih =>
    intro e h
    rw [fetchAll] at h
    cases hf : fetch p with
    | error e' =>
      rw [hf] at h
      cases h
      exact ⟨p, hf⟩
    | ok c =>
      rw [hf] at h
      cases hr : fetchAll fetch rest with
      | error e' =>
        rw [hr] at h
        cases h
        exact ih _ hr
      | ok cs =>
        rw [hr] at h
        cases h

/-- An error surfaced by the level loop is the error of some nested fetch,
unchanged. -/
theorem expandLevel_error (fetch : String → Except ApiErrorBody GithubContents) :
    (d : Nat) → (nodes : List GithubContents) → (idx : ChildrenIndex) →
    (e : ApiErrorBody) → expandLevel fetch d nodes idx = .error e →
    ∃ p, fetch p = .error e
  | 0, nodes, idx, e, h => by simp [expandLevel] at h
  | 1, nodes, idx, e, h => by simp [expandLevel] at h
  | d + 2, nodes, idx, e, h => by
    rw [expandLevel] at h
    cases hf : fetchAll fetch ((nodes.map (dirFetchPaths (d + 2))).flatten) with
    | error e' =>
      rw [hf] at h
      cases h
      exact fetchAll_error fetch _ _ hf
    | ok children =>
      rw [hf] at h
      dsimp only at h
      by_cases hc : children.isEmpty
      · rw [if_pos hc] at h
        cases h
      · rw [if_neg hc] at h
        exact expandLevel_error fetch (d + 1) children _ e h

/-- C3: if `expand_tree` fails, it fails with exactly the error of one of
the nested fetches, unchanged; the `Result` it returns carries either the
full assembled tree or that error, never any subset of entries. -/
theorem c3_error_propagation :
    ∀ (fetch : String → Except ApiErrorBody GithubContents)
      (contents : GithubContents) (depth : Nat) (root_parent : String)
      (e : ApiErrorBody),
      expand_tree fetch contents depth root_parent = .error e →
      ∃ p, fetch p = .error e := by
  intro fetch contents depth root_parent e h
  rw [expand_tree] at h
  cases hl : expandLevel fetch depth [contents] [] with
  | error e' =>
    rw [hl] at h
    cases h
    exact expandLevel_error fetch depth [contents] [] e hl
  | ok idx =>
    rw [hl] at h
    cases h

/-- A fetcher that always fails, used as a concrete witness input. -/
def failFetch : String → Except ApiErrorBody GithubContents :=
  fun _ => .error ⟨"boom", "500"⟩

/-- A concrete directory entry of kind Dir at the repository root. -/
def sampleDirEntry : GithubDirectoryEntry :=
  ⟨"d", "d", .dir, none, none, none⟩

/-- Witness for C3: expanding a root listing that contains a directory at
depth 2 issues a nested fetch, the fetch fails, and the expansion surfaces
exactly that error. -/
theorem c3_witness :
    expand_tree failFetch (GithubContents.Directory [sampleDirEntry]) 2 "" =
      .error ⟨"boom", "500"⟩ ∧
    ∃ p, failFetch p = .error ⟨"boom", "500"⟩ :=
  ⟨rfl, c3_error_propagation failFetch (GithubContents.Directory [sampleDirEntry]) 2 ""
    ⟨"boom", "500"⟩ rfl⟩

/-- `into_tree_entry` stores exactly the children it is given. -/
theorem GithubDirectoryEntry.into_tree_entry_children
    (e : GithubDirectoryEntry) (cs : List TreeEntry) :
    (e.into_tree_entry cs).children = cs := rfl

/-- Appending under the key of a singleton index extends its sequence. -/
theorem appendIdx_singleton (p : String) (acc : List TreeEntry) (x : TreeEntry) :
    appendIdx [(p, acc)] p x = [(p, acc ++ [x])] := by
  simp [appendIdx]

/-- Folding a directory listing whose entries all share the parent key `p`
appends their leaf entries, in order, under that single key. -/
theorem foldl_appendIdx_same_key :
    ∀ (entries : List GithubDirectoryEntry) (p : String) (acc : List TreeEntry),
      (∀ e ∈ entries, parent_path e.path = p) →
      entries.foldl
          (fun i e => appendIdx i (parent_path e.path) (e.into_tree_entry [])) [(p, acc)] =
        [(p, acc ++ entries.map (fun e => e.into_tree_entry []))] := by
  intro entries
  induction entries with
  | nil => intro p acc _; simp
  | cons e rest ih =>
    intro p acc h
    have hp : parent_path e.path = p := h e (List.mem_cons_self e rest)
    simp only [List.foldl_cons, hp, appendIdx_singleton]
    rw [ih p (acc ++ [e.into_tree_entry []])
      (fun x hx => h x (List.mem_cons_of_mem e hx))]
    simp

/-- Overwriting an empty children list with the empty list is the
identity. -/
theorem TreeEntry.setChildren_self (t : TreeEntry) (h : t.children = []) :
    t.setChildren [] = t := by
  cases t with
  | mk ty n p s tg su cs =>
    simp only [TreeEntry.children] at h
    simp [TreeEntry.setChildren, h]

/-- Assembling entries that all have empty children lists, with a recursion
that always comes back empty-handed, returns the entries and the index
unchanged. -/
theorem assembleEntries_leaves
    (go : ChildrenIndex → String → List TreeEntry × ChildrenIndex)
    (hgo : ∀ i p, go i p = ([], i)) :
    ∀ (l : List TreeEntry) (idx : ChildrenIndex), (∀ t ∈ l, t.children = []) →
      assembleEntries go l idx = (l, idx) := by
  intro l
  induction l with
  | nil => intro idx _; rfl
  | cons t rest ih =>
    intro idx h
    have ht := h t (List.mem_cons_self t rest)
    have hrest := fun x hx => h x (List.mem_cons_of_mem t hx)
    rw [assembleEntries]
    by_cases hd : (t.type == EntryType.dir) = true
    · simp only [hd, if_pos, hgo, TreeEntry.setChildren_self t ht, ih idx hrest]
    · simp only [hd, if_neg, Bool.false_eq_true, ite_false, ih idx hrest]

/-- Assembling a single-key index at its key returns the stored sequence
when every stored entry is a leaf. -/
theorem assemble_tree_single_key (p : String) (l : List TreeEntry)
    (h : ∀ t ∈ l, t.children = []) : assemble_tree [(p, l)] p = l := by
  have hlen : ([(p, l)] : ChildrenIndex).length = 1 := rfl
  rw [assemble_tree, hlen]
  have hrk : removeKey [(p, l)] p = (some l, []) := by
    simp [removeKey, lookupIdx, eraseIdx]
  rw [assembleGo, hrk]
  dsimp only
  rw [assembleEntries_leaves (fun i q => assembleGo 0 i q) (fun _ _ => rfl) l [] h]

/-- C4: the `tree` handler clamps the requested depth to a minimum of 1
(first conjunct, `args.depth.max(1)`); an expansion at depth 1 never
consults the fetcher — its result is the same for any two fetchers (second
conjunct) — and for a directory listing whose entries live under the
requested path it returns exactly those entries as leaves, in listing
order (third conjunct): nested fetches happen only for Dir entries while
the remaining depth exceeds 1. -/
theorem c4_depth_one_no_fetch :
    (∀ n : Nat, 1 ≤ server_tree_depth n) ∧
    (∀ (f g : String → Except ApiErrorBody GithubContents)
       (c : GithubContents) (p : String),
      expand_tree f c 1 p = expand_tree g c 1 p) ∧
    (∀ (f : String → Except ApiErrorBody GithubContents)
       (entries : List GithubDirectoryEntry) (p : String),
      (∀ e ∈ entries, parent_path e.path = p) →
      expand_tree f (.Directory entries) 1 p =
        .ok (entries.map (fun e => e.into_tree_entry []))) := by
  refine ⟨fun n => le_max_right n 1, fun f g c p => rfl, ?_⟩
  intro f entries p h
  have h1 : expandLevel f 1 [GithubContents.Directory entries] [] =
      .ok (appendNode [] (.Directory entries)) := rfl
  rw [expand_tree, h1]
  dsimp only
  cases entries with
  | nil => rfl
  | cons e rest =>
    have hp : parent_path e.path = p := h e (List.mem_cons_self e rest)
    have hrest : ∀ x ∈ rest, parent_path x.path = p :=
      fun x hx => h x (List.mem_cons_of_mem e hx)
    have hidx : appendNode [] (GithubContents.Directory (e :: rest)) =
        [(p, (e :: rest).map (fun x => x.into_tree_entry []))] := by
      show (e :: rest).foldl
          (fun i x => appendIdx i (parent_path x.path) (x.into_tree_entry [])) [] =
        [(p, (e :: rest).map (fun x => x.into_tree_entry []))]
      simp only [List.foldl_cons, appendIdx, hp]
      rw [foldl_appendIdx_same_key rest p [e.into_tree_entry []] hrest]
      simp
    rw [hidx, assemble_tree_single_key p _ (by
      intro t ht
      rw [List.mem_map] at ht
      obtain ⟨x, _, hx⟩ := ht
      rw [← hx]
      rfl)]

/-- A fetcher that always answers an empty listing, a concrete witness
input. -/
def okFetch : String → Except ApiErrorBody GithubContents :=
  fun _ => .ok (.Directory [])

/-- A concrete file entry under the directory "a". -/
def sampleFileEntry : GithubDirectoryEntry :=
  ⟨"x", "a/x", .file, some 10, none, none⟩

/-- Witness for C4: the clamp at 0, and a depth-1 expansion of a concrete
listing returning exactly its leaf. -/
theorem c4_witness :
    1 ≤ server_tree_depth 0 ∧
    expand_tree okFetch (GithubContents.Directory [sampleFileEntry]) 1 "a" =
      .ok [sampleFileEntry.into_tree_entry []] :=
  ⟨c4_depth_one_no_fetch.1 0,
   c4_depth_one_no_fetch.2.2 okFetch [sampleFileEntry] "a" (by
     intro e he
     rw [List.mem_singleton] at he
     subst he
     rfl)⟩

/-- Removing a key only ever shrinks the index. -/
theorem eraseIdx_sublist (idx : ChildrenIndex) (key : String) :
    List.Sublist (eraseIdx idx key) idx := by
  induction idx with
  | nil => exact List.Sublist.refl _
  | cons kv rest ih =>
    obtain ⟨k, v⟩ := kv
    rw [eraseIdx]
    by_cases hk : k = key
    · rw [if_pos hk]
      exact (List.Sublist.refl rest).cons _
    · rw [if_neg hk]
      exact ih.cons₂ _

/-- A key looks up to nothing exactly when it is absent from the key
list. -/
theorem lookupIdx_eq_none_iff (idx : ChildrenIndex) (key : String) :
    lookupIdx idx key = none ↔ key ∉ idx.map Prod.fst := by
  induction idx with
  | nil => simp [lookupIdx]
  | cons kv rest ih =>
    obtain ⟨k, v⟩ := kv
    rw [lookupIdx]
    by_cases hk : k = key
    · rw [if_pos hk]
      simp [hk]
    · rw [if_neg hk]
      simp only [List.map_cons, List.mem_cons, ih]
      constructor
      · intro h hmem
        cases hmem with
        | inl h' => exact hk h'.symm
        | inr h' => exact h h'
      · intro h hmem
        exact h (Or.inr hmem)

/-- Absence of a key is preserved when passing to a smaller index. -/
theorem lookupIdx_none_of_sublist {idx idx' : ChildrenIndex} (key : String)
    (hsub : List.Sublist idx' idx) (h : lookupIdx idx key = none) :
    lookupIdx idx' key = none := by
  rw [lookupIdx_eq_none_iff] at h ⊢
  intro hmem
  exact h ((hsub.map Prod.fst).subset hmem)

/-- With unique keys — the `HashMap` invariant — a removed key is gone. -/
theorem eraseIdx_lookup_none (idx : ChildrenIndex) (key : String)
    (hnd : (idx.map Prod.fst).Nodup) :
    lookupIdx (eraseIdx idx key) key = none := by
  induction idx with
  | nil => rfl
  | cons kv rest ih =>
    obtain ⟨k, v⟩ := kv
    simp only [List.map_cons, List.nodup_cons] at hnd
    obtain ⟨hk_not, hnd'⟩ := hnd
    rw [eraseIdx]
    by_cases hk : k = key
    · rw [if_pos hk]
      subst hk
      exact (lookupIdx_eq_none_iff rest k).mpr hk_not
    · rw [if_neg hk, lookupIdx, if_neg hk]
      exact ih hnd'

/-- The entry loop only ever shrinks the threaded index, provided the
recursion it is given does. -/
theorem assembleEntries_sublist
    (go : ChildrenIndex → String → List TreeEntry × ChildrenIndex)
    (hgo : ∀ i p, List.Sublist (go i p).2 i) :
    ∀ (es : List TreeEntry) (idx : ChildrenIndex),
      List.Sublist (assembleEntries go es idx).2 idx := by
  intro es
  induction es with
  | nil => intro idx; exact List.Sublist.refl idx
  | cons e rest ih =>
    intro idx
    rw [assembleEntries]
    by_cases hd : (e.type == EntryType.dir) = true
    · simp only [hd, ite_true]
      exact (ih _).trans (hgo idx e.path)
    · simp only [hd, Bool.false_eq_true, ite_false]
      exact ih idx

/-- The assembler only ever shrinks the index: keys are removed upon use
and never re-inserted. -/
theorem assembleGo_sublist :
    ∀ (fuel : Nat) (idx : ChildrenIndex) (p : String),
      List.Sublist (assembleGo fuel idx p).2 idx := by
  intro fuel
  induction fuel with
  | zero => intro idx p; exact List.Sublist.refl idx
  | succ f ih =>
    intro idx p
    rw [assembleGo]
    cases hl : lookupIdx idx p with
    | none =>
      have hrk : removeKey idx p = (none, idx) := by simp [removeKey, hl]
      rw [hrk]
    | some es =>
      have hrk : removeKey idx p = (some es, eraseIdx idx p) := by
        simp [removeKey, hl]
      rw [hrk]
      dsimp only
      exact (assembleEntries_sublist _ (fun i q => ih i q) es _).trans
        (eraseIdx_sublist idx p)

/-- Once the assembler has consumed a key, that key is gone from the index
it hands back (so the same child sequence can never be attached twice). -/
theorem assembleGo_lookup_none :
    ∀ (fuel : Nat) (idx : ChildrenIndex) (p : String),
      (idx.map Prod.fst).Nodup → 0 < fuel →
      lookupIdx (assembleGo fuel idx p).2 p = none := by
  intro fuel idx p hnd hf
  match fuel, hf with
  | f + 1, _ =>
    rw [assembleGo]
    cases hl : lookupIdx idx p with
    | none =>
      have hrk : removeKey idx p = (none, idx) := by simp [removeKey, hl]
      rw [hrk]
      exact hl
    | some es =>
      have hrk : removeKey idx p = (some es, eraseIdx idx p) := by
        simp [removeKey, hl]
      rw [hrk]
      dsimp only
      exact lookupIdx_none_of_sublist p
        (assembleEntries_sublist _ (fun i q => assembleGo_sublist f i q) es _)
        (eraseIdx_lookup_none idx p hnd)

/-- C5: a key absent from the Children Index yields the empty sequence and
leaves the index untouched — not an error (first conjunct); a consumed key
is removed from the index the assembler hands back, with unique keys as
`HashMap` guarantees, so no key is consumed twice and no child sequence is
attached twice (second conjunct); and the index only ever shrinks — the
assembler never adds or re-inserts a key (third conjunct). -/
theorem c5_assembler_consumes_keys :
    (∀ (fuel : Nat) (idx : ChildrenIndex) (p : String),
      lookupIdx idx p = none → assembleGo fuel idx p = ([], idx)) ∧
    (∀ (fuel : Nat) (idx : ChildrenIndex) (p : String),
      (idx.map Prod.fst).Nodup → 0 < fuel →
      lookupIdx (assembleGo fuel idx p).2 p = none) ∧
    (∀ (fuel : Nat) (idx : ChildrenIndex) (p : String),
      List.Sublist (assembleGo fuel idx p).2 idx) := by
  refine ⟨?_, assembleGo_lookup_none, assembleGo_sublist⟩
  intro fuel idx p h
  cases fuel with
  | zero => rfl
  | succ f =>
    have hrk : removeKey idx p = (none, idx) := by simp [removeKey, h]
    rw [assembleGo, hrk]

/-- A concrete leaf entry. -/
def sampleLeaf : TreeEntry :=
  .mk .file "x" "a/x" (some 10) none none []

/-- A concrete one-key children index. -/
def sampleIdx : ChildrenIndex := [("a", [sampleLeaf])]

/-- Witness for C5 at a concrete index: an absent key yields the empty
sequence with the index untouched, and a consumed key is gone afterwards. -/
theorem c5_witness :
    assembleGo 1 sampleIdx "zz" = ([], sampleIdx) ∧
    lookupIdx (assembleGo 1 sampleIdx "a").2 "a" = none ∧
    List.Sublist (assembleGo 1 sampleIdx "a").2 sampleIdx :=
  ⟨c5_assembler_consumes_keys.1 1 sampleIdx "zz" rfl,
   c5_assembler_consumes_keys.2.1 1 sampleIdx "a" (by simp [sampleIdx]) (by decide),
   c5_assembler_consumes_keys.2.2 1 sampleIdx "a"⟩

/-- From `RepoSummary` in src/models.rs. -/
structure RepoSummary where
  name : String
  full_name : String
  private_ : Bool
  description : Option String
  html_url : String
deriving DecidableEq, Repr

/-- The observable outcome of one endpoint attempt inside `list_repos`
(src/client/mod.rs lines 91-123), mirroring its branch structure exactly:
`request.send()` fails (`from_reqwest`); the status is 404 (`from_response`
body); the status is any other non-success (`from_response` body); the
status is a success but the JSON body does not decode; or the repository
list decodes. -/
inductive EndpointResult where
  | sendError (e : ApiErrorBody)
  | notFound (e : ApiErrorBody)
  | httpError (e : ApiErrorBody)
  | parseError (e : ApiErrorBody)
  | success (repos : List RepoSummary)

/-- The `for base in ["users", "orgs"]` loop of `list_repos`
(src/client/mod.rs lines 89-127) with its `last_err` threading: a 404
stores its error body in `last_err` and continues; every other failure
returns immediately; a success returns immediately; a fully exhausted loop
returns `last_err` (with the source's unreachable fallback body). -/
def listReposLoop (ep : String → EndpointResult) :
    List String → Option ApiErrorBody → Except ApiErrorBody (List RepoSummary)
  | [], lastErr =>
    .error (lastErr.getD ⟨"Failed to list repositories for the requested owner.", "0"⟩)
  | base :: rest, _lastErr =>
    match ep base with
    | .sendError e => .error e
    | .notFound e => listReposLoop ep rest (some e)
    | .httpError e => .error e
    | .parseError e => .error e
    | .success rs => .ok rs

/-- From `list_repos` in src/client/mod.rs (lines 83-128): try the
user-repositories endpoint, then the organization-repositories endpoint. -/
def list_repos (ep : String → EndpointResult) :
    Except ApiErrorBody (List RepoSummary) :=
  listReposLoop ep ["users", "orgs"] none

/-- C10: `list_repos` consults the "users" endpoint first — when that
attempt succeeds or fails with anything but a 404, its result is returned
immediately and the "orgs" endpoint plays no part in the conclusion
(conjuncts 1-4); only a 404 moves on to the "orgs" endpoint, whose success
or non-404 failure is then returned unchanged (conjuncts 5-6); and when
both endpoints answer 404 the surfaced error is the one from the "orgs"
endpoint, the last attempted (conjunct 7). -/
theorem c10_list_repos_fallback :
    (∀ (ep : String → EndpointResult) (rs : List RepoSummary),
      ep "users" = .success rs → list_repos ep = .ok rs) ∧
    (∀ (ep : String → EndpointResult) (e : ApiErrorBody),
      ep "users" = .sendError e → list_repos ep = .error e) ∧
    (∀ (ep : String → EndpointResult) (e : ApiErrorBody),
      ep "users" = .httpError e → list_repos ep = .error e) ∧
    (∀ (ep : String → EndpointResult) (e : ApiErrorBody),
      ep "users" = .parseError e → list_repos ep = .error e) ∧
    (∀ (ep : String → EndpointResult) (e₁ : ApiErrorBody) (rs : List RepoSummary),
      ep "users" = .notFound e₁ → ep "orgs" = .success rs →
      list_repos ep = .ok rs) ∧
    (∀ (ep : String → EndpointResult) (e₁ e₂ : ApiErrorBody),
      ep "users" = .notFound e₁ →
      (ep "orgs" = .sendError e₂ ∨ ep "orgs" = .httpError e₂ ∨
        ep "orgs" = .parseError e₂) →
      list_repos ep = .error e₂) ∧
    (∀ (ep : String → EndpointResult) (e₁ e₂ : ApiErrorBody),
      ep "users" = .notFound e₁ → ep "orgs" = .notFound e₂ →
      list_repos ep = .error e₂) := by
  refine ⟨?_, ?_, ?_, ?_, ?_, ?_, ?_⟩
  · intro ep rs h
    rw [list_repos, listReposLoop, h]
  · intro ep e h
    rw [list_repos, listReposLoop, h]
  · intro ep e h
    rw [list_repos, listReposLoop, h]
  · intro ep e h
    rw [list_repos, listReposLoop, h]
  · intro ep e₁ rs h₁ h₂
    rw [list_repos, listReposLoop, h₁]
    dsimp only
    rw [listReposLoop, h₂]
  · intro ep e₁ e₂ h₁ h₂
    rw [list_repos, listReposLoop, h₁]
    dsimp only
    cases h₂ with
    | inl h => rw [listReposLoop, h]
    | inr h =>
      cases h with
      | inl h => rw [listReposLoop, h]
      | inr h => rw [listReposLoop, h]
  · intro ep e₁ e₂ h₁ h₂
    rw [list_repos, listReposLoop, h₁]
    dsimp only
    rw [listReposLoop, h₂]
    dsimp only
    rw [listReposLoop]
    rfl

/-- A concrete endpoint oracle where both endpoints answer 404 with
distinguishable bodies. -/
def bothNotFound : String → EndpointResult :=
  fun base =>
    if base = "users" then .notFound ⟨"users missing", "404"⟩
    else .notFound ⟨"orgs missing", "404"⟩

/-- Witness for C10: with 404 from both endpoints, the surfaced error is
the organization endpoint's, the last attempted. -/
theorem c10_witness :
    list_repos bothNotFound = .error ⟨"orgs missing", "404"⟩ :=
  c10_list_repos_fallback.2.2.2.2.2.2 bothNotFound
    ⟨"users missing", "404"⟩ ⟨"orgs missing", "404"⟩ rfl rfl
